import Mathlib

/-!
Verification of the MegaBonk image-resolution scripts.

This file gives a shallow embedding, in Lean 4, of the name-normalization,
variant-generation, entity-index, match-resolution, download-validation and
metadata-sync logic of the repository's Python scripts
(`scripts/scrape-images-v2.py`, `scripts/scrape-images.py`,
`scripts/scrape-megabonk-wiki.py`, `scripts/fetch-missing-images.py`,
`scripts/update-json-images.py`), and proves or refutes the specification's
claims about them.

Modelling conventions:
* Python strings are modelled as `List Char` over ASCII text; `str.lower` is
  modelled by the ASCII case map (the scripts only ever handle ASCII names).
* Python's whitespace class (`\s` in the regexes, and the default set of
  `str.strip`) is modelled by the six ASCII whitespace characters.
* Network transport is modelled as an oracle: page payloads and download
  success are inputs, and the functions below compute what the scripts do
  with them.  File-system writes are modelled as returned values.
* Python `dict`s are modelled as association lists in insertion order
  (CPython dicts iterate in insertion order).  Python `set`s are modelled as
  lists with a fixed construction order; every property proved about them
  below is order-independent unless explicitly noted.
-/

/-- ASCII whitespace, the characters matched by `\s` in the scripts' regexes
and stripped by Python's `str.strip()` on ASCII input:
space, tab, newline, vertical tab, form feed, carriage return. -/
def isWS (c : Char) : Bool :=
  c == ' ' || c == '\t' || c == '\n' || c == Char.ofNat 11 || c == Char.ofNat 12 || c == '\r'

/-- The character class `[a-z]`. -/
def isLowerAlpha (c : Char) : Bool :=
  'a' ≤ c && c ≤ 'z'

/-- The character class `[0-9]`. -/
def isDigitC (c : Char) : Bool :=
  '0' ≤ c && c ≤ '9'

/-- The character class `[a-z0-9\s]` kept by `re.sub(r'[^a-z0-9\s]', '', ...)`
in `normalize_name`. -/
def keepChar (c : Char) : Bool :=
  isLowerAlpha c || isDigitC c || isWS c

/-- ASCII case map of Python's `str.lower()`: `A`-`Z` go to `a`-`z`, every
other ASCII character is fixed. -/
def asciiLower (c : Char) : Char :=
  if 'A' ≤ c && c ≤ 'Z' then Char.ofNat (c.toNat + 32) else c

/-- `str.lower()` on a whole string (ASCII model). -/
def lowerStr (l : List Char) : List Char :=
  l.map asciiLower

/-- Python's `str.strip()`: drop whitespace from both ends. -/
def stripWS (l : List Char) : List Char :=
  ((l.dropWhile (fun c => isWS c)).reverse.dropWhile (fun c => isWS c)).reverse

/-- Model of `re.sub(r'\s+', sep, s)` for a one-character replacement `sep`:
every maximal run of whitespace characters is replaced by the single
character `sep`.  `scrape-images-v2.py` and `scrape-megabonk-wiki.py` use
`sep = ' '`; `scrape-images.py` uses `sep = '_'`. -/
def collapseRuns (sep : Char) : List Char → List Char
  | [] => []
  | c :: rest =>
    if isWS c then
      match rest with
      | [] => [sep]
      | d :: _ => if isWS d then collapseRuns sep rest else sep :: collapseRuns sep rest
    else c :: collapseRuns sep rest

/-- `re.sub(r'\s+', ' ', s)` as used by `normalize_name` in
`scrape-images-v2.py`. -/
def collapseWS (l : List Char) : List Char :=
  collapseRuns ' ' l

/-- Characters stripped by `str.strip('_ ')` in `create_name_variants`. -/
def isUS (c : Char) : Bool :=
  c == '_' || c == ' '

/-- Python's `str.strip('_ ')`: drop underscores and spaces from both ends. -/
def stripUS (l : List Char) : List Char :=
  ((l.dropWhile (fun c => isUS c)).reverse.dropWhile (fun c => isUS c)).reverse

/-- `normalize_name` from `scripts/scrape-images-v2.py` (lines 83-92):
empty input maps to the empty string; otherwise lowercase, strip, remove
every character outside `[a-z0-9\s]`, and collapse whitespace runs to a
single space.  Note the `strip()` happens before the character removal, so
the result may still begin or end with a space. -/
def normalize_name (l : List Char) : List Char :=
  if l.isEmpty then [] else collapseWS ((stripWS (lowerStr l)).filter keepChar)

/-! ### Basic lemmas about the string primitives -/

theorem mem_dropWhile_subset {p : Char → Bool} {l : List Char} {c : Char}
    (h : c ∈ l.dropWhile p) : c ∈ l :=
  (List.dropWhile_suffix p).subset h

theorem mem_stripWS_subset {l : List Char} {c : Char} (h : c ∈ stripWS l) : c ∈ l := by
  unfold stripWS at h
  rw [List.mem_reverse] at h
  have h1 := mem_dropWhile_subset h
  rw [List.mem_reverse] at h1
  exact mem_dropWhile_subset h1

theorem mem_dropWhile_of_not {p : Char → Bool} {l : List Char} {c : Char}
    (hc : c ∈ l) (hp : p c = false) : c ∈ l.dropWhile p := by
  induction l with
  | nil => cases hc
  | cons a rest ih =>
    rw [List.dropWhile_cons]
    by_cases ha : p a
    · simp only [ha, if_true]
      rcases List.mem_cons.1 hc with h | h
      · subst h; rw [hp] at ha; cases ha
      · exact ih h
    · simp only [ha, if_false]
      exact hc

theorem mem_stripWS_of_not {l : List Char} {c : Char}
    (hc : c ∈ l) (hw : isWS c = false) : c ∈ stripWS l := by
  unfold stripWS
  rw [List.mem_reverse]
  apply mem_dropWhile_of_not _ hw
  rw [List.mem_reverse]
  exact mem_dropWhile_of_not hc hw

theorem head?_dropWhile_not {p : Char → Bool} {l : List Char} {c : Char}
    (h : (l.dropWhile p).head? = some c) : p c = false := by
  induction l with
  | nil => cases h
  | cons a rest ih =>
    rw [List.dropWhile_cons] at h
    cases ha : p a with
    | true => rw [ha] at h; simp only [if_true] at h; exact ih h
    | false =>
      rw [ha] at h
      simp only [Bool.false_eq_true, if_false, List.head?_cons, Option.some.injEq] at h
      subst h
      exact ha

theorem collapseRuns_cons_eq (sep a : Char) (rest : List Char) :
    collapseRuns sep (a :: rest) =
      if isWS a = true then
        (match rest with
         | [] => [sep]
         | d :: _ => if isWS d = true then collapseRuns sep rest else sep :: collapseRuns sep rest)
      else a :: collapseRuns sep rest := rfl

theorem collapseRuns_cons_not_ws {sep c : Char} {rest : List Char} (hc : isWS c = false) :
    collapseRuns sep (c :: rest) = c :: collapseRuns sep rest := by
  rw [collapseRuns_cons_eq, hc]
  simp

theorem collapseRuns_single_ws {sep c : Char} (hc : isWS c = true) :
    collapseRuns sep [c] = [sep] := by
  rw [collapseRuns_cons_eq, hc]
  simp

theorem collapseRuns_ws_ws {sep a d : Char} {r : List Char}
    (ha : isWS a = true) (hd : isWS d = true) :
    collapseRuns sep (a :: d :: r) = collapseRuns sep (d :: r) := by
  rw [collapseRuns_cons_eq, ha]
  simp [hd]

theorem collapseRuns_ws_not_ws {sep a d : Char} {r : List Char}
    (ha : isWS a = true) (hd : isWS d = false) :
    collapseRuns sep (a :: d :: r) = sep :: collapseRuns sep (d :: r) := by
  rw [collapseRuns_cons_eq, ha]
  simp [hd]

theorem mem_collapseRuns {sep : Char} {l : List Char} :
    ∀ c ∈ collapseRuns sep l, c = sep ∨ (c ∈ l ∧ isWS c = false) := by
  induction l with
  | nil => intro c hc; cases hc
  | cons a rest ih =>
    intro c hc
    cases ha : isWS a with
    | true =>
      cases rest with
      | nil =>
        rw [collapseRuns_single_ws ha] at hc
        left
        simpa using hc
      | cons d rest' =>
        cases hd : isWS d with
        | true =>
          rw [collapseRuns_ws_ws ha hd] at hc
          rcases ih c hc with h | ⟨hm, hw⟩
          · left; exact h
          · right; exact ⟨List.mem_cons_of_mem _ hm, hw⟩
        | false =>
          rw [collapseRuns_ws_not_ws ha hd] at hc
          rcases List.mem_cons.1 hc with h | h
          · left; exact h
          · rcases ih c h with h' | ⟨hm, hw⟩
            · left; exact h'
            · right; exact ⟨List.mem_cons_of_mem _ hm, hw⟩
    | false =>
      rw [collapseRuns_cons_not_ws ha] at hc
      rcases List.mem_cons.1 hc with h | h
      · right; subst h; exact ⟨List.mem_cons_self _ _, ha⟩
      · rcases ih c h with h' | ⟨hm, hw⟩
        · left; exact h'
        · right; exact ⟨List.mem_cons_of_mem _ hm, hw⟩

/-- The no-two-adjacent-whitespace property of collapsed strings. -/
def NoWSRun (l : List Char) : Prop :=
  List.Chain' (fun a b => ¬(isWS a = true ∧ isWS b = true)) l

theorem noWSRun_collapseRuns (sep : Char) (l : List Char) : NoWSRun (collapseRuns sep l) := by
  induction l with
  | nil => exact List.chain'_nil
  | cons a rest ih =>
    cases ha : isWS a with
    | true =>
      cases rest with
      | nil =>
        rw [collapseRuns_single_ws ha]
        exact List.chain'_singleton _
      | cons d rest' =>
        cases hd : isWS d with
        | true => rw [collapseRuns_ws_ws ha hd]; exact ih
        | false =>
          rw [collapseRuns_ws_not_ws ha hd]
          rw [collapseRuns_cons_not_ws hd]
          rw [collapseRuns_cons_not_ws hd] at ih
          refine List.chain'_cons.2 ⟨fun h => ?_, ih⟩
          rw [hd] at h
          exact absurd h.2 (by simp)
    | false =>
      rw [collapseRuns_cons_not_ws ha]
      apply List.chain'_cons'.2
      refine ⟨fun b _ h => ?_, ih⟩
      rw [ha] at h
      exact absurd h.1 (by simp)

theorem collapseRuns_eq_self {sep : Char} :
    ∀ l : List Char, (∀ c ∈ l, isWS c = false ∨ c = sep) → NoWSRun l → collapseRuns sep l = l := by
  intro l
  induction l with
  | nil => intro _ _; rfl
  | cons a rest ih =>
    intro hchar hrun
    cases ha : isWS a with
    | true =>
      have haeq : a = sep := by
        rcases hchar a (List.mem_cons_self _ _) with h | h
        · rw [ha] at h; cases h
        · exact h
      cases rest with
      | nil => rw [collapseRuns_single_ws ha, haeq]
      | cons d rest' =>
        have hd : isWS d = false := by
          cases hdc : isWS d with
          | false => rfl
          | true => exact absurd ⟨ha, hdc⟩ (List.chain'_cons.1 hrun).1
        rw [collapseRuns_ws_not_ws ha hd, haeq]
        congr 1
        exact ih (fun c hc => hchar c (List.mem_cons_of_mem _ hc)) (List.Chain'.tail hrun)
    | false =>
      rw [collapseRuns_cons_not_ws ha]
      congr 1
      exact ih (fun c hc => hchar c (List.mem_cons_of_mem _ hc)) (List.Chain'.tail hrun)

theorem noWSRun_dropWhile {p : Char → Bool} {l : List Char} (h : NoWSRun l) :
    NoWSRun (l.dropWhile p) := by
  induction l with
  | nil => exact List.chain'_nil
  | cons a rest ih =>
    rw [List.dropWhile_cons]
    by_cases ha : p a
    · simp only [ha, if_true]
      exact ih (List.Chain'.tail h)
    · simp only [ha, if_false]
      exact h

theorem noWSRun_reverse {l : List Char} (h : NoWSRun l) : NoWSRun l.reverse := by
  rw [NoWSRun, List.chain'_reverse]
  exact h.imp (fun a b hab => fun hc => hab ⟨hc.2, hc.1⟩)

theorem noWSRun_stripWS {l : List Char} (h : NoWSRun l) : NoWSRun (stripWS l) :=
  noWSRun_reverse (noWSRun_dropWhile (noWSRun_reverse (noWSRun_dropWhile h)))

theorem asciiLower_eq_self_of_lower {c : Char} (h : isLowerAlpha c = true) :
    asciiLower c = c := by
  unfold asciiLower
  rw [isLowerAlpha, Bool.and_eq_true] at h
  have h1 : 'a' ≤ c := of_decide_eq_true h.1
  have hz : ¬(c ≤ 'Z') := by
    intro hc
    exact absurd (le_trans h1 hc) (by decide)
  simp [hz]

theorem asciiLower_eq_self_of_digit {c : Char} (h : isDigitC c = true) :
    asciiLower c = c := by
  unfold asciiLower
  rw [isDigitC, Bool.and_eq_true] at h
  have h2 : c ≤ '9' := of_decide_eq_true h.2
  have hz : ¬('A' ≤ c) := by
    intro hc
    exact absurd (le_trans hc h2) (by decide)
  simp [hz]

theorem asciiLower_space : asciiLower ' ' = ' ' := by decide

theorem map_eq_self_of_fixed {f : Char → Char} :
    ∀ {l : List Char}, (∀ c ∈ l, f c = c) → l.map f = l := by
  intro l
  induction l with
  | nil => intro _; rfl
  | cons a rest ih =>
    intro h
    rw [List.map_cons, h a (List.mem_cons_self _ _), ih (fun c hc => h c (List.mem_cons_of_mem _ hc))]

/-! ### Canonical form of `normalize_name` output (claim C2) -/

/-- Characters that can appear in the output of `normalize_name`. -/
def canonChar (c : Char) : Prop :=
  isLowerAlpha c = true ∨ isDigitC c = true ∨ c = ' '

theorem isWS_eq_false_of_zero_le {c : Char} (h : '0' ≤ c) : isWS c = false := by
  unfold isWS
  simp only [Bool.or_eq_false_iff, beq_eq_false_iff_ne, ne_eq]
  refine ⟨⟨⟨⟨⟨?_, ?_⟩, ?_⟩, ?_⟩, ?_⟩, ?_⟩ <;>
    · intro e; subst e; exact absurd h (by decide)

theorem isWS_eq_false_of_canon_ne_space {c : Char}
    (h : isLowerAlpha c = true ∨ isDigitC c = true) : isWS c = false := by
  rcases h with h | h
  · rw [isLowerAlpha, Bool.and_eq_true] at h
    exact isWS_eq_false_of_zero_le (le_trans (by decide) (of_decide_eq_true h.1))
  · rw [isDigitC, Bool.and_eq_true] at h
    exact isWS_eq_false_of_zero_le (of_decide_eq_true h.1)

theorem canonChar_mem_normalize {l : List Char} :
    ∀ c ∈ normalize_name l, canonChar c := by
  intro c hc
  unfold normalize_name at hc
  by_cases hl : l.isEmpty
  · rw [if_pos hl] at hc; cases hc
  · rw [if_neg hl] at hc
    rcases mem_collapseRuns c hc with h | ⟨hm, hw⟩
    · right; right; exact h
    · have hk : keepChar c = true := List.of_mem_filter hm
      rw [keepChar, Bool.or_eq_true, Bool.or_eq_true] at hk
      rcases hk with (h | h) | h
      · left; exact h
      · right; left; exact h
      · rw [hw] at h; cases h

theorem canonChar_fixed_lower {c : Char} (h : canonChar c) : asciiLower c = c := by
  rcases h with h | h | h
  · exact asciiLower_eq_self_of_lower h
  · exact asciiLower_eq_self_of_digit h
  · subst h; decide

theorem canonChar_keep {c : Char} (h : canonChar c) : keepChar c = true := by
  rcases h with h | h | h
  · rw [keepChar, h]; rfl
  · rw [keepChar, h]; simp
  · subst h; decide

theorem canonChar_ws_cases {c : Char} (h : canonChar c) : isWS c = false ∨ c = ' ' := by
  rcases h with h | h | h
  · left; exact isWS_eq_false_of_canon_ne_space (Or.inl h)
  · left; exact isWS_eq_false_of_canon_ne_space (Or.inr h)
  · right; exact h

theorem noWSRun_normalize (l : List Char) : NoWSRun (normalize_name l) := by
  unfold normalize_name
  by_cases hl : l.isEmpty
  · rw [if_pos hl]; exact List.chain'_nil
  · rw [if_neg hl]; exact noWSRun_collapseRuns _ _

/-- C2 (counterexample): `normalize_name` is not idempotent.  On `"! a"` the
`strip()` happens before the punctuation is removed, so the removal exposes a
leading space that the final whitespace collapse keeps: the first application
yields `" a"`, the second `"a"`. -/
theorem C2_counterexample :
    normalize_name (normalize_name ("! a".toList)) ≠ normalize_name ("! a".toList) := by
  decide

/-- C2 (amended): re-normalizing strips the leading/trailing whitespace of the
first result: `normalize(normalize(x)) = strip(normalize(x))` for every
input; in particular idempotence holds exactly when `normalize(x)` carries no
leading or trailing whitespace. -/
theorem C2_normalize_renormalize (l : List Char) :
    normalize_name (normalize_name l) = stripWS (normalize_name l) := by
  by_cases hm : (normalize_name l).isEmpty
  · rw [List.isEmpty_iff] at hm
    rw [hm]
    rfl
  · have hcanon := @canonChar_mem_normalize l
    have hrun := noWSRun_normalize l
    conv_lhs => rw [normalize_name]
    rw [if_neg hm]
    have s1 : lowerStr (normalize_name l) = normalize_name l :=
      map_eq_self_of_fixed (fun c hc => canonChar_fixed_lower (hcanon c hc))
    rw [lowerStr] at s1
    rw [lowerStr, s1]
    have s2 : (stripWS (normalize_name l)).filter keepChar = stripWS (normalize_name l) :=
      List.filter_eq_self.mpr (fun c hc => canonChar_keep (hcanon c (mem_stripWS_subset hc)))
    rw [s2]
    exact collapseRuns_eq_self _
      (fun c hc => canonChar_ws_cases (hcanon c (mem_stripWS_subset hc)))
      (noWSRun_stripWS hrun)

/-! ### Variant generation (`create_name_variants`, claims C3 and C9) -/

/-- The ASCII apostrophe character. -/
def apos : Char := Char.ofNat 39

/-- Fueled scanner for Python's `str.replace(pat, rep)`: at each position,
if `pat` is a prefix, emit `rep` and skip `pat.length` characters, else keep
one character; non-overlapping, left to right.  One unit of fuel is spent per
step, and every step consumes at least one character when `pat ≠ []`, so
`l.length` fuel computes the full replacement. -/
def replaceAllGo (pat rep : List Char) : Nat → List Char → List Char
  | 0, l => l
  | _ + 1, [] => []
  | fuel + 1, c :: rest =>
    if pat.isPrefixOf (c :: rest) then
      rep ++ replaceAllGo pat rep fuel ((c :: rest).drop pat.length)
    else c :: replaceAllGo pat rep fuel rest

/-- Python's `str.replace(pat, rep)` for the nonempty patterns used by the
scripts (`" icon"`, `"'s"`, `"'"`, ...).  The scripts never call `replace`
with an empty pattern; for totality an empty pattern leaves the string
unchanged. -/
def replaceAll (pat rep l : List Char) : List Char :=
  if pat.isEmpty then l else replaceAllGo pat rep l.length l

/-- Fueled scanner for `re.sub(r'\s*\([^)]*\)', '', s)`: at each position the
regex matches a (possibly empty) whitespace run, an opening parenthesis, a
run of non-`)` characters and the first closing parenthesis; the leftmost
match is removed and scanning resumes after it.  Every step consumes at
least one character, so `l.length` fuel computes the full substitution. -/
def removeParensGo : Nat → List Char → List Char
  | 0, l => l
  | _ + 1, [] => []
  | fuel + 1, c :: rest =>
    match (c :: rest).dropWhile (fun x => isWS x) with
    | '(' :: t =>
      match t.dropWhile (fun x => x != ')') with
      | ')' :: t3 => removeParensGo fuel t3
      | _ => c :: removeParensGo fuel rest
    | _ => c :: removeParensGo fuel rest

/-- `re.sub(r'\s*\([^)]*\)', '', s)` from `create_name_variants`. -/
def removeParens (l : List Char) : List Char :=
  removeParensGo l.length l

/-- `re.sub(r'[\s_]+\d*$', '', s)` from `create_name_variants`: strip the
maximal trailing digit run together with the maximal preceding run of
whitespace/underscores, provided that run is nonempty (otherwise the regex
does not match and the string is unchanged). -/
def stripTrailingNum (l : List Char) : List Char :=
  let r1 := l.reverse.dropWhile (fun c => isDigitC c)
  let r2 := r1.dropWhile (fun c => isWS c || c == '_')
  if r1 = r2 then l else r2.reverse

/-- The suffix list of `create_name_variants` (line 103 of
`scrape-images-v2.py`); note `str.replace` removes the suffix anywhere in
the string, not only at the end. -/
def commonSuffixes : List (List Char) :=
  [" icon".toList, " img".toList, " image".toList, " item".toList,
   " weapon".toList, " tome".toList, " char".toList]

/-- `create_name_variants` from `scripts/scrape-images-v2.py` (lines 95-125).
The Python function builds a `set`; we model it as the list of generated
variants in construction order (possibly with duplicates) — membership
coincides with membership in the Python set, and every property proved below
is independent of the order.  The final comprehension strips `'_'`/`' '`
from both ends of each variant and drops the falsy (empty) results. -/
def create_name_variants (name : List Char) : List (List Char) :=
  let raw :=
    [normalize_name name]
    ++ commonSuffixes.map (fun suf => normalize_name (replaceAll suf [] name))
    ++ [(normalize_name name).map (fun c => if c = ' ' then '_' else c)]
    ++ [normalize_name (removeParens name)]
    ++ [normalize_name (replaceAll [apos] [] (replaceAll [apos, 's'] ['s'] name))]
    ++ [stripTrailingNum (normalize_name name)]
  (raw.map stripUS).filter (fun v => !v.isEmpty)

theorem mem_collapseRuns_of_mem {sep : Char} {l : List Char} {c : Char}
    (hc : c ∈ l) (hw : isWS c = false) : c ∈ collapseRuns sep l := by
  induction l with
  | nil => cases hc
  | cons a rest ih =>
    cases ha : isWS a with
    | true =>
      have hca : c ≠ a := fun e => by rw [e, ha] at hw; cases hw
      have hcr : c ∈ rest := by
        rcases List.mem_cons.1 hc with h | h
        · exact absurd h hca
        · exact h
      cases rest with
      | nil => cases hcr
      | cons d rest' =>
        cases hd : isWS d with
        | true => rw [collapseRuns_ws_ws ha hd]; exact ih hcr
        | false =>
          rw [collapseRuns_ws_not_ws ha hd]
          exact List.mem_cons_of_mem _ (ih hcr)
    | false =>
      rw [collapseRuns_cons_not_ws ha]
      rcases List.mem_cons.1 hc with h | h
      · subst h; exact List.mem_cons_self _ _
      · exact List.mem_cons_of_mem _ (ih h)

theorem mem_stripUS_of_not {l : List Char} {c : Char}
    (hc : c ∈ l) (hu : isUS c = false) : c ∈ stripUS l := by
  unfold stripUS
  rw [List.mem_reverse]
  apply mem_dropWhile_of_not _ hu
  rw [List.mem_reverse]
  exact mem_dropWhile_of_not hc hu

theorem isUS_eq_false_of_alnum {c : Char}
    (h : isLowerAlpha c = true ∨ isDigitC c = true) : isUS c = false := by
  rcases h with h | h
  · rw [isLowerAlpha, Bool.and_eq_true] at h
    have h1 : 'a' ≤ c := of_decide_eq_true h.1
    unfold isUS
    simp only [Bool.or_eq_false_iff, beq_eq_false_iff_ne, ne_eq]
    constructor <;> (intro e; subst e; exact absurd h1 (by decide))
  · rw [isDigitC, Bool.and_eq_true] at h
    have h1 : '0' ≤ c := of_decide_eq_true h.1
    have h2 : c ≤ '9' := of_decide_eq_true h.2
    unfold isUS
    simp only [Bool.or_eq_false_iff, beq_eq_false_iff_ne, ne_eq]
    constructor
    · intro e; subst e; exact absurd h2 (by decide)
    · intro e; subst e; exact absurd h1 (by decide)

/-- An ASCII letter or digit: exactly the characters of the input that
survive into `normalize_name`'s output. -/
def isAlnumChar (c : Char) : Bool :=
  isLowerAlpha (asciiLower c) || isDigitC c

/-- C3 (counterexample): the claim fails for the non-empty name `"!!!"` — it
contains no alphanumeric character, every generated variant normalizes to
the empty string, and the final comprehension discards them all, leaving the
empty set. -/
theorem C3_counterexample :
    "!!!".toList ≠ [] ∧ create_name_variants ("!!!".toList) = [] := by
  constructor
  · decide
  · decide

/-- C3 (amended): `create_name_variants` returns a non-empty set for every
name that contains at least one ASCII alphanumeric character (names made
only of punctuation/whitespace yield the empty set, as the counterexample
shows). -/
theorem C3_variants_nonempty (name : List Char)
    (h : ∃ c ∈ name, isAlnumChar c = true) : create_name_variants name ≠ [] := by
  obtain ⟨c0, hc0, halnum⟩ := h
  rw [isAlnumChar, Bool.or_eq_true] at halnum
  have halnum' : isLowerAlpha (asciiLower c0) = true ∨ isDigitC (asciiLower c0) = true := by
    rcases halnum with h | h
    · left; exact h
    · right; rw [asciiLower_eq_self_of_digit h]; exact h
  have hlm : asciiLower c0 ∈ lowerStr name := List.mem_map_of_mem asciiLower hc0
  have hws : isWS (asciiLower c0) = false := isWS_eq_false_of_canon_ne_space halnum'
  have hst : asciiLower c0 ∈ stripWS (lowerStr name) := mem_stripWS_of_not hlm hws
  have hkeep : keepChar (asciiLower c0) = true := by
    rw [keepChar, Bool.or_eq_true, Bool.or_eq_true]
    rcases halnum' with h | h
    · left; left; exact h
    · left; right; exact h
  have hfil : asciiLower c0 ∈ (stripWS (lowerStr name)).filter keepChar :=
    List.mem_filter_of_mem hst hkeep
  have hnorm : asciiLower c0 ∈ normalize_name name := by
    rw [normalize_name, if_neg]
    · exact mem_collapseRuns_of_mem hfil hws
    · intro he
      rw [List.isEmpty_iff] at he
      rw [he] at hc0
      cases hc0
  have hus : isUS (asciiLower c0) = false := isUS_eq_false_of_alnum halnum'
  have hmem : asciiLower c0 ∈ stripUS (normalize_name name) := mem_stripUS_of_not hnorm hus
  have hne : stripUS (normalize_name name) ≠ [] := List.ne_nil_of_mem hmem
  apply List.ne_nil_of_mem
  show stripUS (normalize_name name) ∈ create_name_variants name
  unfold create_name_variants
  apply List.mem_filter_of_mem
  · apply List.mem_map_of_mem
    simp
  · simp only [Bool.not_eq_true']
    cases he : (stripUS (normalize_name name)).isEmpty
    · rfl
    · rw [List.isEmpty_iff] at he
      exact absurd he hne

/-- C3 (witness): the amended theorem applied to the concrete name
`"Anvil"`. -/
theorem C3_witness :
    (∃ c ∈ ("Anvil".toList), isAlnumChar c = true) ∧ create_name_variants ("Anvil".toList) ≠ [] :=
  ⟨by decide, C3_variants_nonempty _ (by decide)⟩

theorem stripUS_getLast_not {x : List Char} {c : Char}
    (h : (stripUS x).getLast? = some c) : isUS c = false := by
  unfold stripUS at h
  rw [List.getLast?_reverse] at h
  exact head?_dropWhile_not h

theorem stripUS_head_not {x : List Char} {c : Char}
    (h : (stripUS x).head? = some c) : isUS c = false := by
  unfold stripUS at h
  rw [List.head?_reverse] at h
  have hz : ((x.dropWhile (fun c => isUS c)).reverse.dropWhile (fun c => isUS c)) ≠ [] := by
    intro he
    rw [he] at h
    cases h
  have hlast :
      ((x.dropWhile (fun c => isUS c)).reverse.dropWhile (fun c => isUS c)).getLast? =
        (x.dropWhile (fun c => isUS c)).reverse.getLast? := by
    conv_rhs =>
      rw [← List.takeWhile_append_dropWhile (fun c => isUS c) (x.dropWhile (fun c => isUS c)).reverse]
    rw [List.getLast?_append_of_ne_nil _ hz]
  rw [hlast, List.getLast?_reverse] at h
  exact head?_dropWhile_not h

/-- C9: every string in the set returned by `create_name_variants` is
non-empty and carries no leading or trailing space or underscore — the final
comprehension strips `'_'`/`' '` from both ends and discards falsy results. -/
theorem C9_variants_trimmed (name v : List Char) (h : v ∈ create_name_variants name) :
    v ≠ [] ∧ (∀ c, v.head? = some c → isUS c = false) ∧
      (∀ c, v.getLast? = some c → isUS c = false) := by
  unfold create_name_variants at h
  have h' := List.mem_filter.1 h
  obtain ⟨x, _, hx⟩ := List.mem_map.1 h'.1
  have hne : v ≠ [] := by
    intro he
    have := h'.2
    rw [he] at this
    cases this
  subst hx
  exact ⟨hne, fun c hc => stripUS_head_not hc, fun c hc => stripUS_getLast_not hc⟩

/-- C9 (witness): the theorem applied to the concrete variant `"anvil"` of
the name `"Anvil"`. -/
theorem C9_witness :
    "anvil".toList ∈ create_name_variants ("Anvil".toList) ∧
      ("anvil".toList ≠ [] ∧
        (∀ c, ("anvil".toList).head? = some c → isUS c = false) ∧
        (∀ c, ("anvil".toList).getLast? = some c → isUS c = false)) :=
  ⟨by decide, C9_variants_trimmed ("Anvil".toList) ("anvil".toList) (by decide)⟩

/-! ### Entity index construction (`load_entities`, claim C6) -/

/-- Lookup in a Python dict modelled as an association list in insertion
order (keys are unique by construction, so first match is the dict value). -/
def lookupD (k : List Char) : List (List Char × List Char) → Option (List Char)
  | [] => none
  | p :: rest => if p.1 = k then some p.2 else lookupD k rest

/-- A catalog entry as consulted by the scrapers: `entity.get("id", "")` and
`entity.get("name", "")`. -/
structure Entity where
  id : List Char
  name : List Char
deriving DecidableEq

/-- The variant pool one entry contributes to the index:
`create_name_variants(entity_name)` unioned with
`create_name_variants(entity_id.replace('_', ' '))`
(lines 195-196 of `scrape-images-v2.py`).  Modelled as list concatenation;
all inserts of one entry map to the same id, so set order is irrelevant. -/
def entityVars (e : Entity) : List (List Char) :=
  create_name_variants e.name ++
    create_name_variants (e.id.map (fun c => if c = '_' then ' ' else c))

/-- The insertion loop of `load_entities` (lines 198-200): each variant is
added to the index only if it is truthy and not already a key. -/
def insertVars (eid : List Char) : List (List Char) → List (List Char × List Char) →
    List (List Char × List Char)
  | [], acc => acc
  | v :: rest, acc =>
    insertVars eid rest
      (if !v.isEmpty && (lookupD v acc).isNone then acc ++ [(v, eid)] else acc)

/-- The entity loop of `load_entities` (lines 184-200): entries whose id is
among the existing asset stems are skipped entirely; every other entry is
recorded as missing and its variants inserted first-writer-wins. -/
def load_entities_go (existing : List (List Char)) :
    List Entity → List (List Char × List Char) → List (List Char) →
      List (List Char × List Char) × List (List Char)
  | [], acc, miss => (acc, miss)
  | e :: rest, acc, miss =>
    if e.id ∈ existing then load_entities_go existing rest acc miss
    else load_entities_go existing rest (insertVars e.id (entityVars e) acc) (miss ++ [e.id])

/-- `load_entities` from `scripts/scrape-images-v2.py` (lines 162-202),
with the JSON entries and the set of existing asset stems supplied as
inputs.  Returns the `name_to_id` index and the `missing_ids` list. -/
def load_entities (existing : List (List Char)) (entities : List Entity) :
    List (List Char × List Char) × List (List Char) :=
  load_entities_go existing entities [] []

theorem mem_variants_ne_nil {name v : List Char} (h : v ∈ create_name_variants name) :
    v ≠ [] := by
  unfold create_name_variants at h
  have h' := (List.mem_filter.1 h).2
  intro he
  rw [he] at h'
  cases h'

theorem mem_entityVars_ne_nil {e : Entity} {v : List Char} (h : v ∈ entityVars e) :
    v ≠ [] := by
  rcases List.mem_append.1 h with h' | h'
  · exact mem_variants_ne_nil h'
  · exact mem_variants_ne_nil h'

theorem lookupD_append_single (k v e : List Char) (acc : List (List Char × List Char)) :
    lookupD k (acc ++ [(v, e)]) =
      match lookupD k acc with
      | some x => some x
      | none => if v = k then some e else none := by
  induction acc with
  | nil => simp [lookupD]
  | cons p rest ih =>
    by_cases hp : p.1 = k
    · simp [lookupD, hp]
    · simp only [List.cons_append, lookupD, if_neg hp]
      exact ih

theorem lookupD_insertVars (eid k : List Char) :
    ∀ (vars : List (List Char)) (acc : List (List Char × List Char)),
      (∀ v ∈ vars, v ≠ []) →
      lookupD k (insertVars eid vars acc) =
        match lookupD k acc with
        | some x => some x
        | none => if k ∈ vars then some eid else none := by
  intro vars
  induction vars with
  | nil =>
    intro acc _
    cases h : lookupD k acc <;> simp [insertVars, h]
  | cons v rest ih =>
    intro acc hne
    have hv : v ≠ [] := hne v (List.mem_cons_self _ _)
    have hvempty : (!v.isEmpty) = true := by
      cases hev : v.isEmpty
      · rfl
      · rw [List.isEmpty_iff] at hev; exact absurd hev hv
    rw [insertVars]
    rw [ih _ (fun w hw => hne w (List.mem_cons_of_mem _ hw))]
    cases hacc : lookupD k acc with
    | some x =>
      have hacc' :
          lookupD k (if !v.isEmpty && (lookupD v acc).isNone then acc ++ [(v, eid)] else acc) =
            some x := by
        by_cases hcond : (!v.isEmpty && (lookupD v acc).isNone) = true
        · rw [if_pos hcond, lookupD_append_single, hacc]
        · rw [if_neg hcond, hacc]
      rw [hacc']
    | none =>
      by_cases hvk : v = k
      · subst hvk
        have hnone : (lookupD v acc).isNone = true := by rw [hacc]; rfl
        rw [if_pos (by rw [hvempty, hnone]; rfl), lookupD_append_single, hacc]
        simp
      · have hacc' :
            lookupD k (if !v.isEmpty && (lookupD v acc).isNone then acc ++ [(v, eid)] else acc) =
              none := by
          by_cases hcond : (!v.isEmpty && (lookupD v acc).isNone) = true
          · rw [if_pos hcond, lookupD_append_single, hacc, if_neg hvk]
          · rw [if_neg hcond, hacc]
        rw [hacc']
        by_cases hmem : k ∈ rest
        · rw [if_pos hmem, if_pos (List.mem_cons_of_mem _ hmem)]
        · rw [if_neg hmem, if_neg (fun hc => by
            rcases List.mem_cons.1 hc with h | h
            · exact hvk h.symm
            · exact hmem h)]

theorem lookupD_load_go (existing : List (List Char)) (k : List Char) :
    ∀ (entities : List Entity) (acc : List (List Char × List Char)) (miss : List (List Char)),
      lookupD k (load_entities_go existing entities acc miss).1 =
        match lookupD k acc with
        | some x => some x
        | none =>
          ((entities.filter (fun e => !decide (e.id ∈ existing))).find?
            (fun e => decide (k ∈ entityVars e))).map Entity.id := by
  intro entities
  induction entities with
  | nil =>
    intro acc miss
    cases h : lookupD k acc <;> simp [load_entities_go, h]
  | cons e rest ih =>
    intro acc miss
    by_cases he : e.id ∈ existing
    · rw [load_entities_go, if_pos he, ih,
        List.filter_cons_of_neg (by simp [he])]
    · rw [load_entities_go, if_neg he, ih,
        List.filter_cons_of_pos (by simp [he]),
        lookupD_insertVars _ _ _ _ (fun v hv => mem_entityVars_ne_nil hv)]
      cases hacc : lookupD k acc with
      | some x => rfl
      | none =>
        by_cases hmem : k ∈ entityVars e
        · rw [if_pos hmem, List.find?_cons_of_pos _ (by simpa using hmem)]
          rfl
        · rw [if_neg hmem, List.find?_cons_of_neg _ (by simpa using hmem)]

/-- C6: index construction processes entries in order; an entry whose asset
stem already exists contributes no keys; every other entry's variants (of
its display name and of its id-as-name) are inserted first-writer-wins.
Consequently the index maps a key `k` to the id of the first entry, among
those without an existing asset, whose variant pool contains `k` — and to
nothing when no such entry exists. -/
theorem C6_index_first_writer (existing : List (List Char)) (entities : List Entity)
    (k : List Char) :
    lookupD k (load_entities existing entities).1 =
      ((entities.filter (fun e => !decide (e.id ∈ existing))).find?
        (fun e => decide (k ∈ entityVars e))).map Entity.id := by
  unfold load_entities
  rw [lookupD_load_go]
  rfl

/-! ### Match resolution (`match_image_to_entity`, claim C5) -/

/-- Python's substring test `pat in s`: `pat` is a prefix of some suffix. -/
def isSubstr (pat : List Char) : List Char → Bool
  | [] => pat.isEmpty
  | c :: rest => pat.isPrefixOf (c :: rest) || isSubstr pat rest

/-- `match_image_to_entity` from `scripts/scrape-images-v2.py`
(lines 205-220).  Exact tier: the first variant of the image name that is a
key of the index wins.  Weak tier (only when no variant is a key): scan the
index in insertion order for a key of length > 3 that contains, or is
contained in, the normalized image name (itself required to have
length > 3). -/
def match_image_to_entity (imgName : List Char) (n2i : List (List Char × List Char)) :
    Option (List Char) :=
  match (create_name_variants imgName).find? (fun v => (lookupD v n2i).isSome) with
  | some v => lookupD v n2i
  | none =>
    (n2i.find? (fun p =>
      decide (3 < p.1.length) && decide (3 < (normalize_name imgName).length) &&
        (isSubstr p.1 (normalize_name imgName) ||
          isSubstr (normalize_name imgName) p.1))).map Prod.snd

/-- C5: if some variant of the candidate's raw name is an exact key of the
index, the resolver returns the index value at one of the candidate's
variants (an exact-tier hit) — in particular the weak substring tier is
never consulted, and no entry reachable only through the weak tier can be
the result. -/
theorem C5_exact_tier_priority (imgName : List Char) (n2i : List (List Char × List Char))
    (h : ∃ v ∈ create_name_variants imgName, (lookupD v n2i).isSome = true) :
    (∃ v ∈ create_name_variants imgName,
        match_image_to_entity imgName n2i = lookupD v n2i ∧ (lookupD v n2i).isSome = true) ∧
      ∀ B, (∀ v ∈ create_name_variants imgName, lookupD v n2i ≠ some B) →
        match_image_to_entity imgName n2i ≠ some B := by
  have hsome : ((create_name_variants imgName).find? (fun v => (lookupD v n2i).isSome)).isSome := by
    rw [List.find?_isSome]
    obtain ⟨v, hv, hp⟩ := h
    exact ⟨v, hv, hp⟩
  obtain ⟨w, hw⟩ := Option.isSome_iff_exists.1 hsome
  have hres : match_image_to_entity imgName n2i = lookupD w n2i := by
    rw [match_image_to_entity, hw]
  have hwmem : w ∈ create_name_variants imgName := List.mem_of_find?_eq_some hw
  have hwp : (lookupD w n2i).isSome = true := by
    have := List.find?_some hw
    simpa using this
  refine ⟨⟨w, hwmem, hres, hwp⟩, ?_⟩
  intro B hB hcon
  rw [hres] at hcon
  exact hB w hwmem hcon

/-- C5 (witness): with the index `{"anvil" ↦ "anvil"}`, the candidate
`"Anvil"` has the exact-tier variant `"anvil"` and the theorem applies. -/
theorem C5_witness :
    (∃ v ∈ create_name_variants ("Anvil".toList),
        match_image_to_entity ("Anvil".toList) [("anvil".toList, "anvil".toList)] =
          lookupD v [("anvil".toList, "anvil".toList)] ∧
          (lookupD v [("anvil".toList, "anvil".toList)]).isSome = true) ∧
      ∀ B, (∀ v ∈ create_name_variants ("Anvil".toList),
          lookupD v [("anvil".toList, "anvil".toList)] ≠ some B) →
        match_image_to_entity ("Anvil".toList) [("anvil".toList, "anvil".toList)] ≠ some B :=
  C5_exact_tier_priority ("Anvil".toList) [("anvil".toList, "anvil".toList)] (by decide)

/-! ### The main candidate loop of `scrape_entity_type` (claim C4) -/

/-- An image candidate extracted from a listing page. -/
structure Candidate where
  name : List Char
  url : List Char
deriving DecidableEq

/-- The candidate loop of `scrape_entity_type` in `scrape-images-v2.py`
(lines 252-270), with the page's candidates and a download-success oracle
`dl` as inputs.  Returns the successful assignments (`matched.add` happens
only after a successful download) and the list of attempted downloads (the
network requests issued).  A falsy (empty) entity id fails the
`if entity_id and entity_id not in matched` guard and is skipped. -/
def scrape_main_go (n2i : List (List Char × List Char)) (dl : Candidate → Bool) :
    List Candidate → List (List Char) →
      List (List Char × Candidate) × List (List Char × Candidate)
  | [], _ => ([], [])
  | c :: rest, matched =>
    match match_image_to_entity c.name n2i with
    | none => scrape_main_go n2i dl rest matched
    | some eid =>
      if eid.isEmpty || decide (eid ∈ matched) then scrape_main_go n2i dl rest matched
      else if dl c then
        ((eid, c) :: (scrape_main_go n2i dl rest (eid :: matched)).1,
         (eid, c) :: (scrape_main_go n2i dl rest (eid :: matched)).2)
      else
        ((scrape_main_go n2i dl rest matched).1,
         (eid, c) :: (scrape_main_go n2i dl rest matched).2)

/-- The successful (entity id, candidate) assignments of one pass. -/
def scrapeAssignments (n2i : List (List Char × List Char)) (dl : Candidate → Bool)
    (cands : List Candidate) : List (List Char × Candidate) :=
  (scrape_main_go n2i dl cands []).1

/-- The attempted downloads (network requests) of one pass. -/
def scrapeAttempts (n2i : List (List Char × List Char)) (dl : Candidate → Bool)
    (cands : List Candidate) : List (List Char × Candidate) :=
  (scrape_main_go n2i dl cands []).2

theorem scrape_go_invariant (n2i : List (List Char × List Char)) (dl : Candidate → Bool) :
    ∀ (cands : List Candidate) (matched : List (List Char)),
      (∀ p ∈ (scrape_main_go n2i dl cands matched).1,
        match_image_to_entity p.2.name n2i = some p.1 ∧ p.1 ∉ matched) ∧
      ((scrape_main_go n2i dl cands matched).1.map Prod.fst).Nodup := by
  intro cands
  induction cands with
  | nil => intro matched; simp [scrape_main_go]
  | cons c rest ih =>
    intro matched
    cases hm : match_image_to_entity c.name n2i with
    | none =>
      simp only [scrape_main_go, hm]
      exact ih matched
    | some eid =>
      simp only [scrape_main_go, hm]
      by_cases hskip : (eid.isEmpty || decide (eid ∈ matched)) = true
      · rw [if_pos hskip]
        exact ih matched
      · rw [if_neg hskip]
        have hnm : eid ∉ matched := by
          intro hmem
          exact hskip (by simp [hmem])
        by_cases hdl : dl c = true
        · rw [if_pos hdl]
          obtain ⟨ihp, ihnd⟩ := ih (eid :: matched)
          constructor
          · intro p hp
            rcases List.mem_cons.1 hp with h | h
            · subst h
              exact ⟨hm, hnm⟩
            · obtain ⟨h1, h2⟩ := ihp p h
              exact ⟨h1, fun hc => h2 (List.mem_cons_of_mem _ hc)⟩
          · rw [List.map_cons]
            refine List.nodup_cons.2 ⟨?_, ihnd⟩
            intro hmem
            obtain ⟨q, hq, hqe⟩ := List.mem_map.1 hmem
            exact (ihp q hq).2 (hqe ▸ List.mem_cons_self _ _)
        · rw [if_neg hdl]
          exact ih matched

theorem snd_nodup_of_fst_nodup {l : List (List Char × Candidate)}
    {f : Candidate → Option (List Char)}
    (hf : ∀ p ∈ l, f p.2 = some p.1) (hnd : (l.map Prod.fst).Nodup) :
    (l.map Prod.snd).Nodup := by
  induction l with
  | nil => exact List.nodup_nil
  | cons p rest ih =>
    rw [List.map_cons] at hnd ⊢
    refine List.nodup_cons.2 ⟨?_, ih (fun q hq => hf q (List.mem_cons_of_mem _ hq))
      (List.nodup_cons.1 hnd).2⟩
    intro hmem
    obtain ⟨q, hq, hqe⟩ := List.mem_map.1 hmem
    have h1 : f q.2 = some q.1 := hf q (List.mem_cons_of_mem _ hq)
    have h2 : f p.2 = some p.1 := hf p (List.mem_cons_self _ _)
    rw [hqe] at h1
    rw [h1, Option.some.injEq] at h2
    apply (List.nodup_cons.1 hnd).1
    rw [← h2]
    exact List.mem_map_of_mem Prod.fst hq

/-- C4: within one resolution pass the produced assignments form a partial
matching — the assigned entity ids are pairwise distinct (once assigned, an
id is excluded for every later candidate of the pass), and no two distinct
assignments share the same candidate. -/
theorem C4_partial_matching (n2i : List (List Char × List Char)) (dl : Candidate → Bool)
    (cands : List Candidate) :
    ((scrapeAssignments n2i dl cands).map Prod.fst).Nodup ∧
      ((scrapeAssignments n2i dl cands).map Prod.snd).Nodup := by
  obtain ⟨hinv, hnd⟩ := scrape_go_invariant n2i dl cands []
  exact ⟨hnd, @snd_nodup_of_fst_nodup _ (fun c => match_image_to_entity c.name n2i)
    (fun p hp => (hinv p hp).1) hnd⟩

/-! ### Re-entrancy (claim C8): skip sets, fallback targets, and the
scripts that respect or ignore them -/

/-- `still_missing` in `scrape_entity_type` (line 273 of
`scrape-images-v2.py`): the missing ids not matched by the main loop. -/
def stillMissing (missing matchedIds : List (List Char)) : List (List Char) :=
  missing.filter (fun eid => !decide (eid ∈ matchedIds))

/-- The ids whose individual wiki pages the fallback loop of
`scrape_entity_type` fetches (lines 275-281): the still-missing ids,
provided there are some and at most 30 of them. -/
def fallbackTargets (missing matchedIds : List (List Char)) : List (List Char) :=
  if !(stillMissing missing matchedIds).isEmpty &&
      decide ((stillMissing missing matchedIds).length ≤ 30) then
    stillMissing missing matchedIds
  else []

/-- Page URL construction of `fetch-missing-images.py`:
`f"{BASE_URL}/wiki/{page_name}"`. -/
def FetchMissing.wikiUrl (page : List Char) : List Char :=
  "https://megabonk.fandom.com/wiki/".toList ++ page

/-- The search terms of `search_in_gallery` (lines 126-130 of
`fetch-missing-images.py`). -/
def FetchMissing.galleryTerms (ename : List Char) : List (List Char) :=
  [ename.map (fun c => if c = ' ' then '_' else c),
   ename.filter (fun c => !(c == ' ')),
   (ename.filter (fun c => !(c == apos))).map (fun c => if c = ' ' then '_' else c)]

/-- The `File:` namespace page URLs `search_in_gallery` may fetch. -/
def FetchMissing.galleryUrls (ename : List Char) : List (List Char) :=
  ((FetchMissing.galleryTerms ename).map (fun t =>
    [FetchMissing.wikiUrl ("File:".toList ++ t ++ ".png".toList),
     FetchMissing.wikiUrl ("File:".toList ++ t ++ ".jpg".toList)])).flatten

/-- The per-entity step of `main` in `fetch-missing-images.py`
(lines 175-196): if `output_dir.glob(f"{entity_id}.*")` is non-empty the
entity is skipped with no network activity at all; otherwise the wiki pages
and then the gallery pages are fetched.  We model the full candidate URL
list of the non-skip branch (the source stops early on the first success);
the skip branch, which claim C8 concerns, is exact. -/
def FetchMissing.entityRequests (dirFiles : List (List Char)) (eid : List Char)
    (pages : List (List Char)) : List (List Char) :=
  if dirFiles.any (fun f => (eid ++ ".".toList).isPrefixOf f) then []
  else
    pages.map FetchMissing.wikiUrl ++
      FetchMissing.galleryUrls ((pages.headD []).map (fun c => if c = '_' then ' ' else c))

theorem load_go_missing (existing : List (List Char)) :
    ∀ (entities : List Entity) (acc : List (List Char × List Char)) (miss : List (List Char)),
      ∀ v ∈ (load_entities_go existing entities acc miss).2, v ∈ miss ∨ v ∉ existing := by
  intro entities
  induction entities with
  | nil => intro acc miss v hv; left; exact hv
  | cons e rest ih =>
    intro acc miss v hv
    by_cases he : e.id ∈ existing
    · rw [load_entities_go, if_pos he] at hv
      exact ih acc miss v hv
    · rw [load_entities_go, if_neg he] at hv
      rcases ih _ _ v hv with h | h
      · rcases List.mem_append.1 h with h' | h'
        · left; exact h'
        · right
          have : v = e.id := by simpa using h'
          rw [this]
          exact he
      · right; exact h

theorem insertVars_mem (eid : List Char) :
    ∀ (vars : List (List Char)) (acc : List (List Char × List Char))
      (p : List Char × List Char),
      p ∈ insertVars eid vars acc → p ∈ acc ∨ p.2 = eid := by
  intro vars
  induction vars with
  | nil => intro acc p hp; left; exact hp
  | cons v rest ih =>
    intro acc p hp
    rw [insertVars] at hp
    rcases ih _ p hp with h | h
    · by_cases hcond : (!v.isEmpty && (lookupD v acc).isNone) = true
      · rw [if_pos hcond] at h
        rcases List.mem_append.1 h with h' | h'
        · left; exact h'
        · right
          have : p = (v, eid) := by simpa using h'
          rw [this]
      · rw [if_neg hcond] at h
        left; exact h
    · right; exact h

theorem load_go_index_vals (existing : List (List Char)) :
    ∀ (entities : List Entity) (acc : List (List Char × List Char)) (miss : List (List Char)),
      ∀ p ∈ (load_entities_go existing entities acc miss).1, p ∈ acc ∨ p.2 ∉ existing := by
  intro entities
  induction entities with
  | nil => intro acc miss p hp; left; exact hp
  | cons e rest ih =>
    intro acc miss p hp
    by_cases he : e.id ∈ existing
    · rw [load_entities_go, if_pos he] at hp
      exact ih acc miss p hp
    · rw [load_entities_go, if_neg he] at hp
      rcases ih _ _ p hp with h | h
      · rcases insertVars_mem _ _ _ p h with h' | h'
        · left; exact h'
        · right; rw [h']; exact he
      · right; exact h

theorem lookupD_mem_of_eq_some {k v : List Char} :
    ∀ {l : List (List Char × List Char)}, lookupD k l = some v → (k, v) ∈ l := by
  intro l
  induction l with
  | nil => intro h; cases h
  | cons p rest ih =>
    intro h
    rw [lookupD] at h
    by_cases hp : p.1 = k
    · rw [if_pos hp, Option.some.injEq] at h
      have hkv : (k, v) = p := by rw [← hp, ← h]
      rw [hkv]
      exact List.mem_cons_self _ _
    · rw [if_neg hp] at h
      exact List.mem_cons_of_mem _ (ih h)

theorem match_image_vals {imgName v : List Char} {n2i : List (List Char × List Char)}
    (h : match_image_to_entity imgName n2i = some v) : ∃ k, (k, v) ∈ n2i := by
  rw [match_image_to_entity] at h
  cases hf : (create_name_variants imgName).find? (fun v => (lookupD v n2i).isSome) with
  | some w =>
    rw [hf] at h
    exact ⟨w, lookupD_mem_of_eq_some h⟩
  | none =>
    rw [hf] at h
    simp only [Option.map_eq_some'] at h
    obtain ⟨p, hp, hpe⟩ := h
    refine ⟨p.1, ?_⟩
    rw [← hpe]
    exact List.mem_of_find?_eq_some hp

theorem scrape_attempts_vals (n2i : List (List Char × List Char)) (dl : Candidate → Bool) :
    ∀ (cands : List Candidate) (matched : List (List Char)),
      ∀ p ∈ (scrape_main_go n2i dl cands matched).2, ∃ k, (k, p.1) ∈ n2i := by
  intro cands
  induction cands with
  | nil => intro matched p hp; cases hp
  | cons c rest ih =>
    intro matched p hp
    cases hm : match_image_to_entity c.name n2i with
    | none =>
      simp only [scrape_main_go, hm] at hp
      exact ih matched p hp
    | some eid =>
      simp only [scrape_main_go, hm] at hp
      by_cases hskip : (eid.isEmpty || decide (eid ∈ matched)) = true
      · rw [if_pos hskip] at hp
        exact ih matched p hp
      · rw [if_neg hskip] at hp
        by_cases hdl : dl c = true
        · rw [if_pos hdl] at hp
          rcases List.mem_cons.1 hp with h | h
          · rw [h]
            exact match_image_vals hm
          · exact ih _ p h
        · rw [if_neg hdl] at hp
          rcases List.mem_cons.1 hp with h | h
          · rw [h]
            exact match_image_vals hm
          · exact ih _ p h

/-- Python dict assignment `d[k] = v` modelled position-preservingly:
update the existing key in place, or append a new binding. -/
def dictSet (k v : List Char) : List (List Char × List Char) → List (List Char × List Char)
  | [] => [(k, v)]
  | p :: rest => if p.1 = k then (k, v) :: rest else p :: dictSet k v rest

/-- `normalize_name` from `scripts/scrape-images.py` (lines 79-87): like the
v2 normalizer but collapsing whitespace runs to underscores.  The source
returns `None` for falsy input; we model that as the empty string (the
source crashes on an empty entity name before the distinction matters). -/
def V1.normalize_name (l : List Char) : List Char :=
  if l.isEmpty then [] else collapseRuns '_' ((stripWS (lowerStr l)).filter keepChar)

/-- `re.sub(r'_(icon|img|image)$', '', s)` from `load_entity_names`
(line 162 of `scrape-images.py`): the match is anchored at the end and the
three alternatives are mutually exclusive as suffixes. -/
def V1.stripIconSuffix (l : List Char) : List Char :=
  if ("_icon".toList).isSuffixOf l then l.take (l.length - 5)
  else if ("_img".toList).isSuffixOf l then l.take (l.length - 4)
  else if ("_image".toList).isSuffixOf l then l.take (l.length - 6)
  else l

/-- `load_entity_names` from `scripts/scrape-images.py` (lines 127-165):
plain dict assignments (later entries overwrite earlier ones), and no check
whatsoever against assets already on disk. -/
def V1.load_go : List Entity → List (List Char × List Char) → List (List Char × List Char)
  | [], acc => acc
  | e :: rest, acc =>
    V1.load_go rest
      (dictSet (V1.stripIconSuffix (V1.normalize_name e.name)) e.id
        (dictSet e.id e.id
          (dictSet (V1.normalize_name e.name) e.id acc)))

/-- `name_to_id` of `scrape-images.py`, built from the catalog entries. -/
def V1.load_entity_names (entities : List Entity) : List (List Char × List Char) :=
  V1.load_go entities []

/-- Python truthiness of `entity_id` (falsy for `None` and for `""`). -/
def truthyOpt : Option (List Char) → Bool
  | some s => !s.isEmpty
  | none => false

/-- `re.sub(r'_+$', '', s)`: drop all trailing underscores. -/
def V1.stripTrailUnderscores (l : List Char) : List Char :=
  (l.reverse.dropWhile (fun c => c == '_')).reverse

/-- `re.sub(r'_\d+$', '', s)`: drop a trailing group of one underscore
followed by one or more digits. -/
def V1.stripUnderscoreNum (l : List Char) : List Char :=
  let r := l.reverse
  let d := r.takeWhile (fun c => isDigitC c)
  if !d.isEmpty && ((r.drop d.length).head? == some '_') then
    (r.drop (d.length + 1)).reverse
  else l

/-- The matching cascade of `scrape_entity_type` in `scrape-images.py`
(lines 200-215): direct lookup of the normalized name, then of the
alternate normalization, then of the raw lowercased-underscored name. -/
def V1.matchEntity (imgName : List Char) (n2i : List (List Char × List Char)) :
    Option (List Char) :=
  let normalized := V1.normalize_name imgName
  let e1 := lookupD normalized n2i
  let e2 :=
    if truthyOpt e1 then e1
    else lookupD (V1.stripUnderscoreNum (V1.stripTrailUnderscores normalized)) n2i
  if truthyOpt e2 then e2
  else lookupD ((lowerStr imgName).map (fun c => if c = ' ' then '_' else c)) n2i

/-- The download loop of `scrape_entity_type` in `scrape-images.py`
(lines 200-230), returning the (entity id, candidate) download attempts —
the network requests issued.  Unlike v2 and unlike
`scrape-megabonk-wiki.py`, this loop performs no existing-asset check of
any kind before downloading. -/
def V1.scrapeAttempts (n2i : List (List Char × List Char)) (dl : Candidate → Bool) :
    List Candidate → List (List Char) → List (List Char × Candidate)
  | [], _ => []
  | c :: rest, matched =>
    match V1.matchEntity c.name n2i with
    | none => V1.scrapeAttempts n2i dl rest matched
    | some eid =>
      if eid.isEmpty || decide (eid ∈ matched) then V1.scrapeAttempts n2i dl rest matched
      else
        (eid, c) ::
          (if dl c then V1.scrapeAttempts n2i dl rest (eid :: matched)
           else V1.scrapeAttempts n2i dl rest matched)

/-- C8 (counterexample): the claim fails for `scrape-images.py`.  With the
catalog entry `{id: "anvil", name: "Anvil"}`, an asset `anvil.png` already
on disk (first conjunct witnesses the stem in the existing set), and the
listing page offering a candidate named `"Anvil"`, the v1 loop — which
consults no on-disk state at all — still issues a download request for
`anvil`. -/
theorem C8_counterexample :
    "anvil".toList ∈ ["anvil".toList] ∧
      (V1.scrapeAttempts (V1.load_entity_names [⟨"anvil".toList, "Anvil".toList⟩])
          (fun _ => true) [⟨"Anvil".toList, "Anvil.png".toList⟩] []).map Prod.fst =
        ["anvil".toList] := by
  constructor
  · decide
  · decide

/-- C8 (amended): the re-entrancy property holds for `scrape-images-v2.py`
and `fetch-missing-images.py` (but not for `scrape-images.py`, see the
counterexample).  If entry id `eid` already has an asset on disk: it is not
in the missing set; no download attempt of the main v2 loop targets it; the
v2 individual-page fallback never fetches its page; and the
`fetch-missing-images` per-entity step issues no request at all for it. -/
theorem C8_no_requests_for_existing (existing : List (List Char)) (entities : List Entity)
    (dl : Candidate → Bool) (cands : List Candidate) (matchedIds : List (List Char))
    (dirFiles pages : List (List Char)) (eid ext : List Char)
    (h : eid ∈ existing) :
    eid ∉ (load_entities existing entities).2 ∧
      (∀ p ∈ scrapeAttempts (load_entities existing entities).1 dl cands, p.1 ≠ eid) ∧
      eid ∉ fallbackTargets (load_entities existing entities).2 matchedIds ∧
      ((eid ++ ".".toList ++ ext) ∈ dirFiles →
        FetchMissing.entityRequests dirFiles eid pages = []) := by
  have hmiss : eid ∉ (load_entities existing entities).2 := by
    intro hc
    rcases load_go_missing existing entities [] [] eid hc with h' | h'
    · cases h'
    · exact h' h
  refine ⟨hmiss, ?_, ?_, ?_⟩
  · intro p hp hpe
    obtain ⟨k, hk⟩ := scrape_attempts_vals _ dl cands [] p hp
    rcases load_go_index_vals existing entities [] [] _ hk with h' | h'
    · cases h'
    · rw [hpe] at h'
      exact h' h
  · intro hc
    rw [fallbackTargets] at hc
    by_cases hcond : (!(stillMissing (load_entities existing entities).2 matchedIds).isEmpty &&
        decide ((stillMissing (load_entities existing entities).2 matchedIds).length ≤ 30)) = true
    · rw [if_pos hcond] at hc
      exact hmiss (List.mem_of_mem_filter hc)
    · rw [if_neg hcond] at hc
      cases hc
  · intro hfile
    rw [FetchMissing.entityRequests, if_pos]
    rw [List.any_eq_true]
    refine ⟨eid ++ ".".toList ++ ext, hfile, ?_⟩
    rw [ List.isPrefixOf_iff_prefix]
    exact List.prefix_append _ _

/-- C8 (witness): the amended theorem at a concrete state — entry `anvil`
with asset `anvil.png` on disk. -/
theorem C8_witness :
    "anvil".toList ∉
        (load_entities ["anvil".toList] [⟨"anvil".toList, "Anvil".toList⟩]).2 ∧
      (∀ p ∈ scrapeAttempts
          (load_entities ["anvil".toList] [⟨"anvil".toList, "Anvil".toList⟩]).1
          (fun _ => true) [⟨"Anvil".toList, "Anvil.png".toList⟩], p.1 ≠ "anvil".toList) ∧
      "anvil".toList ∉ fallbackTargets
          (load_entities ["anvil".toList] [⟨"anvil".toList, "Anvil".toList⟩]).2 [] ∧
      (("anvil".toList ++ ".".toList ++ "png".toList) ∈ ["anvil.png".toList] →
        FetchMissing.entityRequests ["anvil.png".toList] ("anvil".toList)
          ["Anvil".toList] = []) :=
  C8_no_requests_for_existing ["anvil".toList] [⟨"anvil".toList, "Anvil".toList⟩]
    (fun _ => true) [⟨"Anvil".toList, "Anvil.png".toList⟩] []
    ["anvil.png".toList] ["Anvil".toList] ("anvil".toList) ("png".toList) (by decide)

/-! ### Download validation (claim C1) -/

/-- `download_image` from `scripts/scrape-megabonk-wiki.py` (lines 114-140),
applied to the payload bytes read from the HTTP response (the exception
path of the transport is modelled outside).  Returns the reported success
flag and the bytes written to `save_path`, if any: payloads under 500 bytes
and payloads of exactly the wiki-logo fingerprint length 5320 are rejected
with nothing written; everything else is written as-is. -/
def WikiScrape.download_image (data : List Nat) : Bool × Option (List Nat) :=
  if data.length < 500 then (false, none)
  else if data.length = 5320 then (false, none)
  else (true, some data)

/-- `download_image` from `scripts/fetch-missing-images.py` (lines 87-98):
it performs no size validation at all — every payload read from the
response is written to `save_path` and reported as success. -/
def FetchMissing.download_image (data : List Nat) : Bool × Option (List Nat) :=
  (true, some data)

/-- C1 (counterexample): the claim fails for the `download_image` of
`fetch-missing-images.py`, one of its two cited implementations — a
100-byte payload is far below the 500-byte minimum, yet the function
reports success and writes it. -/
theorem C1_counterexample :
    (List.replicate 100 0).length < 500 ∧
      FetchMissing.download_image (List.replicate 100 0) =
        (true, some (List.replicate 100 0)) :=
  ⟨by rw [List.length_replicate]; decide, rfl⟩

/-- C1 (amended): the validation gating holds for the `download_image` of
`scrape-megabonk-wiki.py`: a payload below 500 bytes or of exactly the
5320-byte placeholder fingerprint is rejected with no file written, and
only a payload passing both checks is written (the `fetch-missing-images`
variant writes unconditionally, see the counterexample). -/
theorem C1_validation_gating (data : List Nat) :
    ((data.length < 500 ∨ data.length = 5320) →
        WikiScrape.download_image data = (false, none)) ∧
      (500 ≤ data.length ∧ data.length ≠ 5320 →
        WikiScrape.download_image data = (true, some data)) := by
  constructor
  · intro h
    rw [WikiScrape.download_image]
    rcases h with h | h
    · rw [if_pos h]
    · by_cases h5 : data.length < 500
      · rw [if_pos h5]
      · rw [if_neg h5, if_pos h]
  · intro h
    rw [WikiScrape.download_image, if_neg (by omega), if_neg h.2]

/-- C1 (witness): the amended theorem at the placeholder fingerprint length
and at a valid 600-byte payload. -/
theorem C1_witness :
    WikiScrape.download_image (List.replicate 5320 0) = (false, none) ∧
      WikiScrape.download_image (List.replicate 600 7) =
        (true, some (List.replicate 600 7)) :=
  ⟨(C1_validation_gating _).1 (Or.inr (by rw [List.length_replicate])),
   (C1_validation_gating _).2
     ⟨by rw [List.length_replicate]; decide, by rw [List.length_replicate]; decide⟩⟩

/-! ### Metadata sync (`update-json-images.py`, claims C7 and C10) -/

/-- Python's `dict.pop(k, None)`: remove the key.  Dict keys are unique, so
removal is modelled by filtering the binding out. -/
def dictPop (k : List Char) (o : List (List Char × List Char)) :
    List (List Char × List Char) :=
  o.filter (fun p => !(p.1 == k))

/-- A file of the asset directory, named `<stem>.<ext>`. -/
structure FileEntry where
  stem : List Char
  ext : List Char
deriving DecidableEq

/-- `img_file.name`: the file name of an asset file. -/
def fileName (f : FileEntry) : List Char :=
  f.stem ++ ".".toList ++ f.ext

/-- `f"images/{entity_type}/{img_file.name}"`, the relative path recorded in
the catalog. -/
def relPath (etype : List Char) (f : FileEntry) : List Char :=
  "images/".toList ++ etype ++ "/".toList ++ fileName f

/-- `get_available_images` from `scripts/update-json-images.py`
(lines 17-32): a dict from file stem to relative path, built over the
directory listing with plain assignments (a later file with the same stem
overwrites an earlier one). -/
def get_available_images (etype : List Char) (files : List FileEntry) :
    List (List Char × List Char) :=
  files.foldl (fun acc f => dictSet f.stem (relPath etype f) acc) []

/-- The per-entity body of the update loop of `update_json_file`
(lines 55-62 of `update-json-images.py`): set `entity["image"]` when the
entity's id has an available image, else `entity.pop("image", None)`.
A catalog record is modelled as its field list in order (a JSON object);
only the `"id"` and `"image"` fields are interpreted. -/
def updateEntity (images : List (List Char × List Char)) (e : List (List Char × List Char)) :
    List (List Char × List Char) :=
  match lookupD ((lookupD ("id".toList) e).getD []) images with
  | some p => dictSet ("image".toList) p e
  | none => dictPop ("image".toList) e

/-- `update_json_file` from `scripts/update-json-images.py` (lines 35-69):
the in-place update loop over the entity list, modelled as the elementwise
transformation of the list. -/
def update_json_file (etype : List Char) (files : List FileEntry) :
    List (List (List Char × List Char)) → List (List (List Char × List Char))
  | [] => []
  | e :: rest =>
    updateEntity (get_available_images etype files) e :: update_json_file etype files rest

/-- The JSON update of `main` in `scripts/fetch-missing-images.py`
(lines 263-266): sets `entity["image"]` when a file with the entity's stem
exists, but — unlike `update_json_file` — never clears a previously set
reference when no file exists. -/
def FetchMissing.updateEntity (images : List (List Char × List Char))
    (e : List (List Char × List Char)) : List (List Char × List Char) :=
  match lookupD ((lookupD ("id".toList) e).getD []) images with
  | some p => dictSet ("image".toList) p e
  | none => e

theorem lookupD_dictSet (k k' v : List Char) :
    ∀ o : List (List Char × List Char),
      lookupD k (dictSet k' v o) = if k' = k then some v else lookupD k o := by
  intro o
  induction o with
  | nil => simp [dictSet, lookupD]
  | cons p rest ih =>
    rw [dictSet]
    by_cases hp : p.1 = k'
    · rw [if_pos hp, lookupD, lookupD]
      by_cases hk : k' = k
      · rw [if_pos hk, if_pos hk]
      · rw [if_neg hk, if_neg hk, if_neg (by rw [hp]; exact hk)]
    · rw [if_neg hp, lookupD, lookupD]
      by_cases hpk : p.1 = k
      · rw [if_pos hpk, if_pos hpk, if_neg (fun hc => hp (by rw [hc, hpk]))]
      · rw [if_neg hpk, if_neg hpk, ih]

theorem lookupD_dictPop_self (k : List Char) (o : List (List Char × List Char)) :
    lookupD k (dictPop k o) = none := by
  induction o with
  | nil => rfl
  | cons p rest ih =>
    rw [dictPop, List.filter_cons]
    by_cases hp : p.1 = k
    · rw [if_neg (by simp [hp])]
      exact ih
    · rw [if_pos (by simp [hp]), lookupD, if_neg hp]
      exact ih

theorem lookupD_dictPop_ne {k k' : List Char} (h : k ≠ k') (o : List (List Char × List Char)) :
    lookupD k (dictPop k' o) = lookupD k o := by
  induction o with
  | nil => rfl
  | cons p rest ih =>
    rw [dictPop, List.filter_cons]
    by_cases hp : p.1 = k'
    · rw [if_neg (by simp [hp]), lookupD, if_neg (fun hc => h (by rw [← hc, hp]))]
      exact ih
    · rw [if_pos (by simp [hp]), lookupD, lookupD]
      by_cases hpk : p.1 = k
      · rw [if_pos hpk, if_pos hpk]
      · rw [if_neg hpk, if_neg hpk]
        exact ih

theorem lookupD_foldl_images (etype k : List Char) :
    ∀ (files : List FileEntry) (acc : List (List Char × List Char)),
      lookupD k (files.foldl (fun acc f => dictSet f.stem (relPath etype f) acc) acc) =
        match files.reverse.find? (fun f => decide (f.stem = k)) with
        | some f => some (relPath etype f)
        | none => lookupD k acc := by
  intro files
  induction files with
  | nil => intro acc; rfl
  | cons f rest ih =>
    intro acc
    rw [List.foldl_cons, ih, List.reverse_cons, List.find?_append]
    cases hfind : rest.reverse.find? (fun f => decide (f.stem = k)) with
    | some g => rfl
    | none =>
      rw [Option.none_or]
      by_cases hf : f.stem = k
      · rw [List.find?_cons_of_pos _ (by simpa using hf), lookupD_dictSet, if_pos hf]
      · rw [List.find?_cons_of_neg _ (by simpa using hf), lookupD_dictSet, if_neg hf]
        rfl

theorem lookupD_get_available_images (etype k : List Char) (files : List FileEntry) :
    lookupD k (get_available_images etype files) =
      (files.reverse.find? (fun f => decide (f.stem = k))).map (relPath etype) := by
  rw [get_available_images, lookupD_foldl_images]
  cases h : files.reverse.find? (fun f => decide (f.stem = k)) <;> rfl

theorem update_json_file_eq_map (etype : List Char) (files : List FileEntry) :
    ∀ entities : List (List (List Char × List Char)),
      update_json_file etype files entities =
        entities.map (updateEntity (get_available_images etype files)) := by
  intro entities
  induction entities with
  | nil => rfl
  | cons e rest ih => rw [update_json_file, List.map_cons, ih]

theorem updateEntity_frame (images e : List (List Char × List Char)) (k : List Char)
    (h : k ≠ "image".toList) :
    lookupD k (updateEntity images e) = lookupD k e := by
  cases hm : lookupD ((lookupD ("id".toList) e).getD []) images with
  | some p =>
    simp only [updateEntity, hm]
    rw [lookupD_dictSet, if_neg (fun hc => h hc.symm)]
  | none =>
    simp only [updateEntity, hm]
    exact lookupD_dictPop_ne h e

/-- C10: the metadata sync modifies at most the `"image"` field of each
record — the entity count and order are preserved (the update is the
elementwise map of the per-entity update), and for every record every field
other than `"image"` reads the same after the update. -/
theorem C10_sync_frame (etype : List Char) (files : List FileEntry)
    (entities : List (List (List Char × List Char))) :
    (update_json_file etype files entities).length = entities.length ∧
      update_json_file etype files entities =
        entities.map (updateEntity (get_available_images etype files)) ∧
      ∀ (e : List (List Char × List Char)) (k : List Char), k ≠ "image".toList →
        lookupD k (updateEntity (get_available_images etype files) e) = lookupD k e := by
  refine ⟨?_, update_json_file_eq_map etype files entities,
    fun e k h => updateEntity_frame _ _ _ h⟩
  rw [update_json_file_eq_map]
  exact List.length_map _ _

/-- C10 (witness): the frame property read off at a concrete record — the
`"name"` field survives the update unchanged. -/
theorem C10_witness :
    lookupD ("name".toList)
        (updateEntity (get_available_images ("items".toList) [])
          [("id".toList, "x".toList), ("name".toList, "N".toList)]) =
      lookupD ("name".toList) [("id".toList, "x".toList), ("name".toList, "N".toList)] :=
  (C10_sync_frame ("items".toList) [] []).2.2
    [("id".toList, "x".toList), ("name".toList, "N".toList)] ("name".toList) (by decide)

/-- C7 (counterexample): the claim fails for the JSON update of
`fetch-missing-images.py`, one of its two cited code places — with no asset
file on disk for id `"x"`, a previously set `"image"` reference is left in
place instead of being cleared. -/
theorem C7_counterexample :
    (∀ f ∈ ([] : List FileEntry), f.stem ≠ "x".toList) ∧
      lookupD ("image".toList)
          (FetchMissing.updateEntity (get_available_images ("items".toList) [])
            [("id".toList, "x".toList), ("image".toList, "stale".toList)]) =
        some ("stale".toList) := by
  constructor
  · intro f hf
    cases hf
  · decide

/-- C7 (amended): for `update_json_file` of `update-json-images.py` the
claim holds — after the sync, an entity's `"image"` field is the relative
path of the asset file whose stem equals the entity's id when such a file
exists (stated for a unique such file; with several, the last in directory
order wins), and the field is absent (cleared) when no such file exists.
The `fetch-missing-images.py` updater never clears, see the
counterexample. -/
theorem C7_sync_imageRef (etype : List Char) (files : List FileEntry)
    (entities : List (List (List Char × List Char))) (i : Nat) (hi : i < entities.length) :
    ∃ hu : i < (update_json_file etype files entities).length,
      ((∀ f ∈ files, f.stem ≠ (lookupD ("id".toList) (entities.get ⟨i, hi⟩)).getD []) →
          lookupD ("image".toList) ((update_json_file etype files entities).get ⟨i, hu⟩) =
            none) ∧
        (∀ f ∈ files,
          f.stem = (lookupD ("id".toList) (entities.get ⟨i, hi⟩)).getD [] →
          (∀ g ∈ files, g.stem = f.stem → g = f) →
          lookupD ("image".toList) ((update_json_file etype files entities).get ⟨i, hu⟩) =
            some (relPath etype f)) := by
  have hmap := update_json_file_eq_map etype files entities
  have hu : i < (update_json_file etype files entities).length := by
    rw [hmap, List.length_map]
    exact hi
  have hget : (update_json_file etype files entities).get ⟨i, hu⟩ =
      updateEntity (get_available_images etype files) (entities.get ⟨i, hi⟩) := by
    rw [List.get_eq_getElem, List.get_eq_getElem]
    simp only [hmap, List.getElem_map]
  refine ⟨hu, ?_, ?_⟩
  · intro hnone
    have himg :
        lookupD ((lookupD ("id".toList) (entities.get ⟨i, hi⟩)).getD [])
          (get_available_images etype files) = none := by
      rw [lookupD_get_available_images]
      rw [List.find?_eq_none.2 (fun f hf => by
        simp only [decide_eq_true_eq]
        exact hnone f (List.mem_reverse.1 hf))]
      rfl
    rw [hget]
    simp only [updateEntity, himg]
    exact lookupD_dictPop_self _ _
  · intro f hf hstem huniq
    have hex : ((files.reverse.find?
        (fun g => decide (g.stem =
          (lookupD ("id".toList) (entities.get ⟨i, hi⟩)).getD []))).isSome) = true := by
      rw [List.find?_isSome]
      exact ⟨f, List.mem_reverse.2 hf, by simp [hstem]⟩
    obtain ⟨g, hg⟩ := Option.isSome_iff_exists.1 hex
    have hgmem : g ∈ files := List.mem_reverse.1 (List.mem_of_find?_eq_some hg)
    have hgstem : g.stem = (lookupD ("id".toList) (entities.get ⟨i, hi⟩)).getD [] := by
      have := List.find?_some hg
      simpa using this
    have hgf : g = f := huniq g hgmem (by rw [hgstem, hstem])
    have himg :
        lookupD ((lookupD ("id".toList) (entities.get ⟨i, hi⟩)).getD [])
          (get_available_images etype files) = some (relPath etype f) := by
      rw [lookupD_get_available_images, hg, hgf]
      rfl
    rw [hget]
    simp only [updateEntity, himg]
    rw [lookupD_dictSet, if_pos rfl]

/-- C7 (witness): the amended theorem at the concrete catalog
`[{id: "anvil"}]` with the single asset file `anvil.png`. -/
theorem C7_witness :
    ∃ hu : 0 < (update_json_file ("items".toList) [FileEntry.mk ("anvil".toList) ("png".toList)]
          [[("id".toList, "anvil".toList)]]).length,
      ((∀ f ∈ [FileEntry.mk ("anvil".toList) ("png".toList)],
          f.stem ≠ (lookupD ("id".toList)
            (([[("id".toList, "anvil".toList)]]).get ⟨0, by decide⟩)).getD []) →
          lookupD ("image".toList)
            ((update_json_file ("items".toList) [FileEntry.mk ("anvil".toList) ("png".toList)]
              [[("id".toList, "anvil".toList)]]).get ⟨0, hu⟩) = none) ∧
        (∀ f ∈ [FileEntry.mk ("anvil".toList) ("png".toList)],
          f.stem = (lookupD ("id".toList)
            (([[("id".toList, "anvil".toList)]]).get ⟨0, by decide⟩)).getD [] →
          (∀ g ∈ [FileEntry.mk ("anvil".toList) ("png".toList)], g.stem = f.stem → g = f) →
          lookupD ("image".toList)
            ((update_json_file ("items".toList) [FileEntry.mk ("anvil".toList) ("png".toList)]
              [[("id".toList, "anvil".toList)]]).get ⟨0, hu⟩) =
            some (relPath ("items".toList) f)) :=
  C7_sync_imageRef ("items".toList) [FileEntry.mk ("anvil".toList) ("png".toList)]
    [[("id".toList, "anvil".toList)]] 0 (by decide)
